import Mathlib

/-!
A shallow embedding of `src/analysis/compression_analysis.py` (market-regime
research: rolling range compression, day-over-day range overlap, and
directional efficiency over daily OHLC bars), together with proofs of the
specification's testable properties.

A pandas float Series with missing values is embedded as `Nat → Option ℚ`
(`none` is NaN/NA; positions past the end of the frame are `none`).  All
price arithmetic is exact rational arithmetic.
-/

set_option maxHeartbeats 1000000

/-- One parsed CSV row: an instrument-day observation with columns
`Symbol, Date, High, Low, Close`. -/
structure Bar where
  symbol : String
  date : Int
  high : ℚ
  low : ℚ
  close : ℚ
  deriving DecidableEq, Repr

/-- Pointwise lifting of a binary operation to series values: a missing
operand (NaN) propagates, as in pandas arithmetic. -/
def omap2 (f : ℚ → ℚ → ℚ) : Option ℚ → Option ℚ → Option ℚ
  | some a, some b => some (f a b)
  | _, _ => none

/-- Elementwise subtraction of series values, NaN-propagating. -/
def osub : Option ℚ → Option ℚ → Option ℚ := omap2 (· - ·)

/-- Elementwise division of series values, NaN-propagating. -/
def odiv : Option ℚ → Option ℚ → Option ℚ := omap2 (· / ·)

/-- Elementwise absolute value, NaN-propagating (`Series.abs()`). -/
def oabs (x : Option ℚ) : Option ℚ := x.map (fun v => |v|)

/-- `Series.shift(k)`: position `i` reads position `i - k`; the first `k`
positions are NaN. -/
def shift (s : Nat → Option ℚ) (k : Nat) (i : Nat) : Option ℚ :=
  if i < k then none else s (i - k)

/-- `Series.replace(0, pd.NA)`: a zero value becomes missing. -/
def replace0 (x : Option ℚ) : Option ℚ :=
  x.bind (fun v => if v = 0 then none else some v)

/-- `Series.clip(lower=0)`: negative values are clamped to zero,
missing values stay missing. -/
def clip0 (x : Option ℚ) : Option ℚ := x.map (fun v => max v 0)

/-- Row-wise minimum of two columns, `DataFrame.min(axis=1)` with the
pandas default `skipna=True`: a NaN operand is skipped, and the result is
NaN only when both operands are NaN. -/
def minSkipna : Option ℚ → Option ℚ → Option ℚ
  | some a, some b => some (min a b)
  | some a, none => some a
  | none, some b => some b
  | none, none => none

/-- Row-wise maximum of two columns, `DataFrame.max(axis=1)` with the
pandas default `skipna=True`. -/
def maxSkipna : Option ℚ → Option ℚ → Option ℚ
  | some a, some b => some (max a b)
  | some a, none => some a
  | none, some b => some b
  | none, none => none

/-- `Series.diff()`: day-over-day difference `s - s.shift(1)`. -/
def diff (s : Nat → Option ℚ) (i : Nat) : Option ℚ :=
  osub (s i) (shift s 1 i)

/-- The values a `rolling(w)` aggregation sees at position `i`: the
non-NA values among positions `max(0, i-w+1) .. i`, latest first. -/
def rollingWindow (s : Nat → Option ℚ) (w i : Nat) : List ℚ :=
  (List.range w).filterMap (fun k => if k ≤ i then s (i - k) else none)

/-- `Series.rolling(w).mean()`: with the pandas default
`min_periods = w`, the result is defined iff the window holds at least
`w` non-NA observations, and is then their arithmetic mean. -/
def rollingMean (s : Nat → Option ℚ) (w i : Nat) : Option ℚ :=
  let vals := rollingWindow s w i
  if w ≤ vals.length then some (vals.sum / vals.length) else none

/-- `Series.rolling(w).sum()`: defined iff the window holds at least `w`
non-NA observations, and is then their sum. -/
def rollingSum (s : Nat → Option ℚ) (w i : Nat) : Option ℚ :=
  let vals := rollingWindow s w i
  if w ≤ vals.length then some vals.sum else none

/-- `compute_overlap_ratio(current_high, current_low)` from the source:
overlap of today's `[low, high]` range with yesterday's, divided by
today's range length (zero range replaced by NA before dividing). -/
def compute_overlap_ratio (current_high current_low : Nat → Option ℚ)
    (i : Nat) : Option ℚ :=
  let previous_high := shift current_high 1 i
  let previous_low := shift current_low 1 i
  let overlap_high := minSkipna (current_high i) previous_high
  let overlap_low := maxSkipna (current_low i) previous_low
  let overlap_length := clip0 (osub overlap_high overlap_low)
  let today_range := replace0 (osub (current_high i) (current_low i))
  odiv overlap_length today_range

/-- `total_movement = close.diff().abs().rolling(window - 1).sum()`:
the sum of absolute day-to-day changes within the window. -/
def total_movement (close : Nat → Option ℚ) (window : Nat) (i : Nat) : Option ℚ :=
  rollingSum (fun j => oabs (diff close j)) (window - 1) i

/-- `compute_directional_efficiency(close, window)` from the source:
net displacement over the window divided by total day-to-day movement
(zero total movement replaced by NA before dividing). -/
def compute_directional_efficiency (close : Nat → Option ℚ)
    (window : Nat) (i : Nat) : Option ℚ :=
  let net_displacement := oabs (osub (close i) (shift close (window - 1) i))
  odiv net_displacement (replace0 (total_movement close window i))

/-- The `High` column of the (date-sorted) frame. -/
def High (data : List Bar) (i : Nat) : Option ℚ := (data.get? i).map Bar.high

/-- The `Low` column of the (date-sorted) frame. -/
def Low (data : List Bar) (i : Nat) : Option ℚ := (data.get? i).map Bar.low

/-- The `Close` column of the (date-sorted) frame. -/
def Close (data : List Bar) (i : Nat) : Option ℚ := (data.get? i).map Bar.close

/-- `data["Range"] = data["High"] - data["Low"]`. -/
def Range (data : List Bar) (i : Nat) : Option ℚ :=
  osub (High data i) (Low data i)

/-- `data[f"Range_MA_{w}"] = data["Range"].rolling(w).mean()`. -/
def Range_MA (data : List Bar) (w i : Nat) : Option ℚ :=
  rollingMean (Range data) w i

/-- `data[f"RangeCompression_{w}_vs_20"] =
data[f"Range_MA_{w}"] / data["Range_MA_20"].replace(0, pd.NA)`. -/
def RangeCompression_vs_20 (data : List Bar) (w i : Nat) : Option ℚ :=
  odiv (Range_MA data w i) (replace0 (Range_MA data 20 i))

/-- `data["Overlap_Ratio"] = compute_overlap_ratio(data["High"], data["Low"])`. -/
def Overlap_Ratio (data : List Bar) (i : Nat) : Option ℚ :=
  compute_overlap_ratio (High data) (Low data) i

/-- `data[f"Overlap_Ratio_MA_{w}"] = data["Overlap_Ratio"].rolling(w).mean()`. -/
def Overlap_Ratio_MA (data : List Bar) (w i : Nat) : Option ℚ :=
  rollingMean (Overlap_Ratio data) w i

/-- `data[f"DirectionalEfficiency_{w}"] =
compute_directional_efficiency(data["Close"], w)`. -/
def DirectionalEfficiency (data : List Bar) (w i : Nat) : Option ℚ :=
  compute_directional_efficiency (Close data) w i

/-- One output row (`cols_to_keep` of `process_symbol`): the identifying
columns plus each derived column. -/
structure MetricRecord where
  symbol : String
  date : Int
  range : Option ℚ
  range_MA_5 : Option ℚ
  range_MA_10 : Option ℚ
  range_MA_20 : Option ℚ
  rangeCompression_5_vs_20 : Option ℚ
  rangeCompression_10_vs_20 : Option ℚ
  overlap_ratio : Option ℚ
  overlap_ratio_MA_5 : Option ℚ
  overlap_ratio_MA_10 : Option ℚ
  directionalEfficiency_5 : Option ℚ
  directionalEfficiency_10 : Option ℚ
  directionalEfficiency_20 : Option ℚ
  deriving DecidableEq, Repr

/-- Output row `i` of the sorted frame `data`, whose input row is `b`. -/
def metricRow (data : List Bar) (i : Nat) (b : Bar) : MetricRecord where
  symbol := b.symbol
  date := b.date
  range := Range data i
  range_MA_5 := Range_MA data 5 i
  range_MA_10 := Range_MA data 10 i
  range_MA_20 := Range_MA data 20 i
  rangeCompression_5_vs_20 := RangeCompression_vs_20 data 5 i
  rangeCompression_10_vs_20 := RangeCompression_vs_20 data 10 i
  overlap_ratio := Overlap_Ratio data i
  overlap_ratio_MA_5 := Overlap_Ratio_MA data 5 i
  overlap_ratio_MA_10 := Overlap_Ratio_MA data 10 i
  directionalEfficiency_5 := DirectionalEfficiency data 5 i
  directionalEfficiency_10 := DirectionalEfficiency data 10 i
  directionalEfficiency_20 := DirectionalEfficiency data 20 i

/-- `data.sort_values("Date")`: stable sort of the rows by date. -/
def sortByDate (input : List Bar) : List Bar :=
  input.mergeSort (fun a b => decide (a.date ≤ b.date))

/-- `process_symbol`: sort the parsed rows by date, then derive every
metric column; one output record per input row.  (CSV parsing itself is
the external Series Loader.) -/
def process_symbol (input : List Bar) : List MetricRecord :=
  let data := sortByDate input
  data.enum.map (fun p => metricRow data p.1 p.2)

/-- `main`: iterate over the (sorted) instrument files of the data
directory.  Each batch entry is `some rows` when the file is readable
and parses, `none` when it is missing or unreadable (where `read_csv`
raises).  The loop body has no exception handling, so an exception from
`process_symbol` propagates and ends the loop: the results written so
far are exactly the returned list. -/
def mainBatch : List (Option (List Bar)) → List (List MetricRecord)
  | [] => []
  | some rows :: rest => process_symbol rows :: mainBatch rest
  | none :: _ => []

/-- The three-bar scenario input of the specification:
`High=[10,12,11], Low=[8,9,10], Close=[9,11,10.5]`. -/
def bars3 : List Bar :=
  [⟨"EURUSD", 0, 10, 8, 9⟩, ⟨"EURUSD", 1, 12, 9, 11⟩,
   ⟨"EURUSD", 2, 11, 10, 21/2⟩]

/-- A single well-formed bar (`High=10, Low=8`): the smallest input on
which the first-bar overlap behavior is visible. -/
def bar1 : List Bar := [⟨"EURUSD", 0, 10, 8, 9⟩]

/-- Twenty identical flat bars (`High=Low=Close=5`): every divisor that
the zero-divisor policy guards is zero here. -/
def bars20 : List Bar :=
  List.replicate 20 ⟨"EURUSD", 0, 5, 5, 5⟩

/-- Five bars with strictly rising closes `1,2,3,4,5` (every day-to-day
change positive): a maximally trending window for window size 5. -/
def bars5up : List Bar :=
  [⟨"EURUSD", 0, 2, 0, 1⟩, ⟨"EURUSD", 1, 3, 1, 2⟩, ⟨"EURUSD", 2, 4, 2, 3⟩,
   ⟨"EURUSD", 3, 5, 3, 4⟩, ⟨"EURUSD", 4, 6, 4, 5⟩]

/-- `bars3` extended with one later bar: agrees with `bars3` on
positions `0..2` and differs afterwards. -/
def bars3ext : List Bar :=
  bars3 ++ [⟨"EURUSD", 3, 100, 1, 50⟩]

/-! ### Helper lemmas about the rolling-window primitives -/

/-- A `filterMap` whose function is total on the list is a `map`. -/
theorem filterMap_eq_map_of_forall {α β : Type} (l : List α)
    (g : α → Option β) (f : α → β) (h : ∀ a ∈ l, g a = some (f a)) :
    l.filterMap g = l.map f := by
  induction l with
  | nil => rfl
  | cons a t ih =>
    simp only [List.filterMap_cons, h a (by simp), List.map_cons]
    rw [ih (fun b hb => h b (by simp [hb]))]

/-- A `filterMap` keeps every element iff the function is total on the
list. -/
theorem length_filterMap_eq_iff {α β : Type} (l : List α) (g : α → Option β) :
    (l.filterMap g).length = l.length ↔ ∀ a ∈ l, (g a).isSome := by
  induction l with
  | nil => simp
  | cons a t ih =>
    cases hg : g a with
    | some b => simp [List.filterMap_cons, hg, ih]
    | none =>
      simp only [List.filterMap_cons, hg, List.length_cons]
      constructor
      · intro h
        exfalso
        have := List.length_filterMap_le g t
        omega
      · intro h
        have := h a (by simp)
        simp [hg] at this

/-- The window never holds more than `w` values. -/
theorem rollingWindow_length_le (s : Nat → Option ℚ) (w i : Nat) :
    (rollingWindow s w i).length ≤ w := by
  have h := List.length_filterMap_le
    (fun k => if k ≤ i then s (i - k) else none) (List.range w)
  simpa [rollingWindow] using h

/-- When every position of the window is in range and defined, the
window is the list of those `w` values, latest first. -/
theorem rollingWindow_eq_map (s : Nat → Option ℚ) (w i : Nat) (v : Nat → ℚ)
    (hw : w ≤ i + 1) (hs : ∀ k < w, s (i - k) = some (v k)) :
    rollingWindow s w i = (List.range w).map v := by
  apply filterMap_eq_map_of_forall
  intro k hk
  have hk' : k < w := List.mem_range.mp hk
  rw [if_pos (by omega)]
  exact hs k hk'

/-- Value of `rolling(w).mean()` when the whole window is defined. -/
theorem rollingMean_eq_of_defined (s : Nat → Option ℚ) (w i : Nat)
    (v : Nat → ℚ) (hw : w ≤ i + 1) (hs : ∀ k < w, s (i - k) = some (v k)) :
    rollingMean s w i = some (((List.range w).map v).sum / (w : ℚ)) := by
  unfold rollingMean
  rw [rollingWindow_eq_map s w i v hw hs]
  simp

/-- Value of `rolling(w).sum()` when the whole window is defined. -/
theorem rollingSum_eq_of_defined (s : Nat → Option ℚ) (w i : Nat)
    (v : Nat → ℚ) (hw : w ≤ i + 1) (hs : ∀ k < w, s (i - k) = some (v k)) :
    rollingSum s w i = some (((List.range w).map v).sum) := by
  unfold rollingSum
  rw [rollingWindow_eq_map s w i v hw hs]
  simp

/-- `rolling(w).mean()` is defined iff the position is past warm-up and
every one of the `w` trailing values is defined (`min_periods = w`). -/
theorem rollingMean_isSome_iff (s : Nat → Option ℚ) (w i : Nat) :
    (rollingMean s w i).isSome ↔
      (w ≤ i + 1 ∧ ∀ k < w, (s (i - k)).isSome) := by
  have hle := rollingWindow_length_le s w i
  have hiff := length_filterMap_eq_iff (List.range w)
    (fun k => if k ≤ i then s (i - k) else none)
  simp only [List.length_range] at hiff
  constructor
  · intro h
    have hcond : w ≤ (rollingWindow s w i).length := by
      by_contra hc
      simp only [rollingMean, if_neg hc, Option.isSome_none] at h
      exact Bool.false_ne_true h
    have hlen : (rollingWindow s w i).length = w := le_antisymm hle hcond
    have hall := hiff.mp hlen
    constructor
    · rcases Nat.eq_zero_or_pos w with hw0 | hw0
      · omega
      · have := hall (w - 1) (List.mem_range.mpr (by omega))
        by_contra hc
        rw [if_neg (by omega)] at this
        simp at this
    · intro k hk
      have := hall k (List.mem_range.mpr hk)
      by_cases hki : k ≤ i
      · rwa [if_pos hki] at this
      · rw [if_neg hki] at this; simp at this
  · rintro ⟨hw, hs⟩
    have hlen : (rollingWindow s w i).length = w := by
      apply hiff.mpr
      intro k hk
      have hk' := List.mem_range.mp hk
      rw [if_pos (by omega)]
      exact hs k hk'
    simp [rollingMean, hlen]

/-- `rolling(w).mean()` in the warm-up region is undefined. -/
theorem rollingMean_eq_none_of_warmup (s : Nat → Option ℚ) (w i : Nat)
    (h : i < w - 1) : rollingMean s w i = none := by
  have hiff := rollingMean_isSome_iff s w i
  rw [← Option.not_isSome_iff_eq_none]
  intro hc
  have := (hiff.mp hc).1
  omega

/-- `List` sums over `range` agree with `Finset` sums over `range`. -/
theorem sum_map_range_eq (f : Nat → ℚ) (n : Nat) :
    ((List.range n).map f).sum = ∑ k ∈ Finset.range n, f k := by
  induction n with
  | zero => simp
  | succ n ih =>
    rw [List.range_succ]
    simp [Finset.sum_range_succ, ih]

/-- A `w`-long slice of the frame, mapped through `f`, as a map over
`List.range w` (every index of the slice is in range). -/
theorem slice_map_eq (data : List Bar) (w i : Nat) (f : Bar → ℚ)
    (hw : w ≤ i + 1) (hi : i < data.length) :
    ((data.drop (i + 1 - w)).take w).map f =
      (List.range w).map (fun j => (data[i + 1 - w + j]?).elim 0 f) := by
  apply List.ext_getElem?
  intro j
  by_cases hj : j < w
  · have hidx : i + 1 - w + j < data.length := by omega
    rw [List.getElem?_map, List.getElem?_take_of_lt hj, List.getElem?_drop,
      List.getElem?_map, List.getElem?_range hj]
    simp [List.getElem?_eq_getElem hidx]
  · have h1 : (((data.drop (i + 1 - w)).take w).map f)[j]? = none := by
      apply List.getElem?_eq_none
      simp only [List.length_map, List.length_take]
      omega
    have h2 : ((List.range w).map fun j => (data[i + 1 - w + j]?).elim 0 f)[j]? = none := by
      apply List.getElem?_eq_none
      simp only [List.length_map, List.length_range]
      omega
    rw [h1, h2]

/-- A missing right operand makes any lifted binary operation missing. -/
theorem omap2_none_right (f : ℚ → ℚ → ℚ) (x : Option ℚ) :
    omap2 f x none = none := by cases x <;> rfl

/-- Every range of the twenty flat bars is zero. -/
theorem range_bars20 : ∀ j < 20, Range bars20 j = some 0 := by
  intro j hj
  have hj' : bars20[j]? = some ⟨"EURUSD", 0, 5, 5, 5⟩ := by
    unfold bars20
    rw [List.getElem?_replicate, if_pos hj]
  simp [Range, High, Low, osub, omap2, List.get?_eq_getElem?, hj']

/-- Every close of the twenty flat bars is `5`. -/
theorem close_bars20 : ∀ j < 20, Close bars20 j = some 5 := by
  intro j hj
  have hj' : bars20[j]? = some ⟨"EURUSD", 0, 5, 5, 5⟩ := by
    unfold bars20
    rw [List.getElem?_replicate, if_pos hj]
  simp [Close, List.get?_eq_getElem?, hj']

/-- On the twenty flat bars the 20-day average range is exactly zero. -/
theorem range_ma_20_bars20 : Range_MA bars20 20 19 = some 0 := by
  have h := rollingMean_eq_of_defined (Range bars20) 20 19 (fun _ => 0)
    (by omega) (fun k hk => range_bars20 (19 - k) (by omega))
  simp only [Range_MA]
  rw [h]
  simp

/-- On the twenty flat bars the total movement over a 5-bar window at
position 19 is exactly zero. -/
theorem total_movement_bars20 : total_movement (Close bars20) 5 19 = some 0 := by
  have hv : ∀ k < 4, oabs (diff (Close bars20) (19 - k)) = some 0 := by
    intro k hk
    have h1 : Close bars20 (19 - k) = some 5 := close_bars20 (19 - k) (by omega)
    have h2 : Close bars20 (19 - k - 1) = some 5 := close_bars20 (19 - k - 1) (by omega)
    have hsh : shift (Close bars20) 1 (19 - k) = some 5 := by
      rw [shift, if_neg (by omega)]
      exact h2
    simp [diff, osub, omap2, h1, hsh, oabs]
  have h := rollingSum_eq_of_defined (fun j => oabs (diff (Close bars20) j))
    4 19 (fun _ => 0) (by omega) hv
  simp only [total_movement]
  norm_num
  rw [h]
  simp

/-! ### The claims -/

/-- C10: every rolling mean (`Range_MA_{5,10,20}` and
`Overlap_Ratio_MA_{5,10}`) follows the full-window policy: its value at
position `i` is defined iff position `i` is past warm-up and all `w`
trailing input values at positions `i-w+1 .. i` are defined; one
undefined value inside the window makes the average undefined. -/
theorem rolling_ma_full_window_policy (data : List Bar) (i : Nat) :
    (∀ w, w = 5 ∨ w = 10 ∨ w = 20 →
      ((Range_MA data w i).isSome ↔
        (w - 1 ≤ i ∧ ∀ k < w, (Range data (i - k)).isSome))) ∧
    (∀ w, w = 5 ∨ w = 10 →
      ((Overlap_Ratio_MA data w i).isSome ↔
        (w - 1 ≤ i ∧ ∀ k < w, (Overlap_Ratio data (i - k)).isSome))) := by
  constructor
  · intro w hw
    have hw1 : 1 ≤ w := by rcases hw with h | h | h <;> omega
    simp only [Range_MA]
    rw [rollingMean_isSome_iff]
    constructor
    · rintro ⟨h1, h2⟩; exact ⟨by omega, h2⟩
    · rintro ⟨h1, h2⟩; exact ⟨by omega, h2⟩
  · intro w hw
    have hw1 : 1 ≤ w := by rcases hw with h | h <;> omega
    simp only [Overlap_Ratio_MA]
    rw [rollingMean_isSome_iff]
    constructor
    · rintro ⟨h1, h2⟩; exact ⟨by omega, h2⟩
    · rintro ⟨h1, h2⟩; exact ⟨by omega, h2⟩

/-- Witness for C10 at a concrete input: the policy instantiated for
`Range_MA_5` and `Overlap_Ratio_MA_5` on the three-bar scenario. -/
theorem rolling_ma_full_window_policy_witness :
    ((Range_MA bars3 5 2).isSome ↔
      (4 ≤ 2 ∧ ∀ k < 5, (Range bars3 (2 - k)).isSome)) ∧
    ((Overlap_Ratio_MA bars3 5 2).isSome ↔
      (4 ≤ 2 ∧ ∀ k < 5, (Overlap_Ratio bars3 (2 - k)).isSome)) :=
  ⟨(rolling_ma_full_window_policy bars3 2).1 5 (by norm_num),
   (rolling_ma_full_window_policy bars3 2).2 5 (by norm_num)⟩

/-- C4: `range[i] = high[i] - low[i]` exactly, and for each window
`w ∈ {5,10,20}`, `range_ma[w]` at position `i` is the arithmetic mean
of `range[i-w+1 .. i]` once `i ≥ w-1` (the mean of the `w`-bar trailing
slice), and is undefined for `i < w-1` (warm-up). -/
theorem range_and_range_ma_correct (data : List Bar) (i w : Nat)
    (hw : w = 5 ∨ w = 10 ∨ w = 20) :
    (∀ b, data.get? i = some b → Range data i = some (b.high - b.low)) ∧
    (w - 1 ≤ i → i < data.length →
      Range_MA data w i =
        some ((((data.drop (i + 1 - w)).take w).map
          (fun b => b.high - b.low)).sum / (w : ℚ))) ∧
    (i < w - 1 → Range_MA data w i = none) := by
  have hw1 : 1 ≤ w := by rcases hw with h | h | h <;> omega
  refine ⟨?_, ?_, ?_⟩
  · intro b hb
    have hb' : data[i]? = some b := by rwa [List.get?_eq_getElem?] at hb
    simp [Range, High, Low, hb', osub, omap2]
  · intro hwi hi
    have hwi' : w ≤ i + 1 := by omega
    set v : Nat → ℚ := fun k => (data[i - k]?).elim 0 (fun b => b.high - b.low)
      with hv
    have hs : ∀ k < w, Range data (i - k) = some (v k) := by
      intro k hk
      have hik : i - k < data.length := by omega
      simp [hv, Range, High, Low, osub, omap2, List.get?_eq_getElem?,
        List.getElem?_eq_getElem hik]
    have hmean := rollingMean_eq_of_defined (Range data) w i v hwi' hs
    simp only [Range_MA]
    rw [hmean, slice_map_eq data w i (fun b => b.high - b.low) hwi' hi]
    have hsum : ((List.range w).map v).sum =
        ((List.range w).map (fun j => (data[i + 1 - w + j]?).elim 0
          (fun b => b.high - b.low))).sum := by
      rw [sum_map_range_eq, sum_map_range_eq, ← Finset.sum_range_reflect v w]
      apply Finset.sum_congr rfl
      intro j hj
      have hj' := Finset.mem_range.mp hj
      simp only [hv]
      have hidx : i - (w - 1 - j) = i + 1 - w + j := by omega
      rw [hidx]
    rw [hsum]
  · intro hlt
    simp only [Range_MA]
    exact rollingMean_eq_none_of_warmup (Range data) w i hlt

/-- Witness for C4 at a concrete input: on the five rising bars (all
ranges equal `2`), `range` at position 4 is `6 - 4 = 2`, `range_ma[5]`
at position 4 is `2`, and `range_ma[5]` at position 2 is undefined. -/
theorem range_and_range_ma_correct_witness :
    Range bars5up 4 = some 2 ∧ Range_MA bars5up 5 4 = some 2 ∧
      Range_MA bars5up 5 2 = none := by
  refine ⟨?_, ?_, ?_⟩
  · have h := (range_and_range_ma_correct bars5up 4 5 (by norm_num)).1
      ⟨"EURUSD", 4, 6, 4, 5⟩ (by rfl)
    rw [h]
    norm_num
  · have h := (range_and_range_ma_correct bars5up 4 5 (by norm_num)).2.1
      (by norm_num) (by norm_num [bars5up])
    rw [h]
    norm_num [bars5up]
  · exact (range_and_range_ma_correct bars5up 2 5 (by norm_num)).2.2 (by norm_num)

/-- C1 (code evaluated at the failing input): on a single-bar sequence
with `High=10, Low=8` the code yields `overlap_ratio = 1` at position 0,
not an undefined value.  `shift(1)` makes the previous bar's columns NaN
there, and `DataFrame.min/max(axis=1)` skip NaN by default, so the
"overlap" degenerates to today's whole range. -/
theorem overlap_ratio_first_bar_defined : Overlap_Ratio bar1 0 = some 1 := by
  norm_num [Overlap_Ratio, compute_overlap_ratio, High, Low, shift, minSkipna,
    maxSkipna, clip0, osub, odiv, omap2, replace0, bar1]

/-- C5: on the scenario input `High=[10,12,11], Low=[8,9,10],
Close=[9,11,10.5]` the engine produces `range=[2,3,1]`,
`overlap_ratio[1] = 1/3` and `overlap_ratio[2] = 1`. -/
theorem scenario_three_bars :
    (process_symbol bars3).map (fun r => r.range) = [some 2, some 3, some 1] ∧
    ((process_symbol bars3).map (fun r => r.overlap_ratio)).get? 1 =
      some (some (1/3)) ∧
    ((process_symbol bars3).map (fun r => r.overlap_ratio)).get? 2 =
      some (some 1) := by
  have hsort : sortByDate bars3 = bars3 :=
    List.mergeSort_of_sorted (by decide)
  have hmap : process_symbol bars3 =
      [metricRow bars3 0 ⟨"EURUSD", 0, 10, 8, 9⟩,
       metricRow bars3 1 ⟨"EURUSD", 1, 12, 9, 11⟩,
       metricRow bars3 2 ⟨"EURUSD", 2, 11, 10, 21/2⟩] := by
    rw [process_symbol]
    rw [hsort]
    rfl
  refine ⟨?_, ?_, ?_⟩
  · rw [hmap]
    simp only [List.map_cons, List.map_nil, metricRow]
    norm_num [Range, High, Low, osub, omap2, bars3]
  · rw [hmap]
    simp only [List.map_cons, List.map_nil, metricRow]
    norm_num [Overlap_Ratio, compute_overlap_ratio, High, Low, shift, minSkipna,
      maxSkipna, clip0, osub, odiv, omap2, replace0, bars3]
  · rw [hmap]
    simp only [List.map_cons, List.map_nil, metricRow]
    norm_num [Overlap_Ratio, compute_overlap_ratio, High, Low, shift, minSkipna,
      maxSkipna, clip0, osub, odiv, omap2, replace0, bars3]

/-- C3: a zero divisor always yields the explicit undefined marker
`none` (never infinity, never an exception), which is distinct from
`some 0`: when `range_ma[20] = 0` both compression ratios are `none`;
when today's range is `0` the overlap ratio is `none`; when the window's
total movement is `0` directional efficiency is `none`. -/
theorem zero_divisor_yields_undefined (data : List Bar) (i : Nat) :
    (Range_MA data 20 i = some 0 →
      RangeCompression_vs_20 data 5 i = none ∧
      RangeCompression_vs_20 data 10 i = none) ∧
    (Range data i = some 0 → Overlap_Ratio data i = none) ∧
    (∀ w, total_movement (Close data) w i = some 0 →
      DirectionalEfficiency data w i = none) := by
  refine ⟨?_, ?_, ?_⟩
  · intro h
    constructor <;>
      simp [RangeCompression_vs_20, h, replace0, odiv, omap2_none_right]
  · intro h
    have h' : osub (High data i) (Low data i) = some 0 := h
    simp [Overlap_Ratio, compute_overlap_ratio, h', replace0, odiv,
      omap2_none_right]
  · intro w h
    simp [DirectionalEfficiency, compute_directional_efficiency, h, replace0,
      odiv, omap2_none_right]

/-- Witness for C3 on the twenty flat bars at position 19: the 20-bar
average range, today's range and the 5-window total movement are all
zero there, and each guarded metric is `none`. -/
theorem zero_divisor_yields_undefined_witness :
    RangeCompression_vs_20 bars20 5 19 = none ∧
    Overlap_Ratio bars20 19 = none ∧
    DirectionalEfficiency bars20 5 19 = none :=
  ⟨((zero_divisor_yields_undefined bars20 19).1 range_ma_20_bars20).1,
   (zero_divisor_yields_undefined bars20 19).2.1 (range_bars20 19 (by norm_num)),
   (zero_divisor_yields_undefined bars20 19).2.2 5 total_movement_bars20⟩

/-- C7: for consecutive bars with well-formed ranges (`high ≥ low` on
both days) and a nonzero range today, the overlap ratio is defined and
lies in `[0, 1]`; the `max(0, ·)` clamp makes it nonnegative even for
disjoint ranges. -/
theorem overlap_ratio_in_unit_interval (data : List Bar) (i : Nat)
    (bPrev bCur : Bar) (h1 : 1 ≤ i)
    (hp : data.get? (i - 1) = some bPrev) (hc : data.get? i = some bCur)
    (hwfp : bPrev.low ≤ bPrev.high) (hwfc : bCur.low ≤ bCur.high)
    (hnz : bCur.high - bCur.low ≠ 0) :
    ∃ q, Overlap_Ratio data i = some q ∧ 0 ≤ q ∧ q ≤ 1 := by
  have hp' : data[i - 1]? = some bPrev := by
    rwa [List.get?_eq_getElem?] at hp
  have hc' : data[i]? = some bCur := by
    rwa [List.get?_eq_getElem?] at hc
  have hr : 0 < bCur.high - bCur.low := by
    rcases lt_or_eq_of_le (sub_nonneg.mpr hwfc) with h | h
    · exact h
    · exact absurd h.symm hnz
  have hsh : shift (High data) 1 i = some bPrev.high := by
    rw [shift, if_neg (by omega)]
    simp [High, List.get?_eq_getElem?, hp']
  have hsl : shift (Low data) 1 i = some bPrev.low := by
    rw [shift, if_neg (by omega)]
    simp [Low, List.get?_eq_getElem?, hp']
  refine ⟨max (min bCur.high bPrev.high - max bCur.low bPrev.low) 0 /
    (bCur.high - bCur.low), ?_, ?_, ?_⟩
  · simp [Overlap_Ratio, compute_overlap_ratio, High, Low,
      List.get?_eq_getElem?, hc', hsh, hsl, minSkipna, maxSkipna, clip0, osub,
      odiv, omap2, replace0, hnz]
  · apply div_nonneg (le_max_right _ _) (le_of_lt hr)
  · rw [div_le_one hr]
    apply max_le
    · apply sub_le_sub
      · exact min_le_left _ _
      · exact le_max_left _ _
    · exact le_of_lt hr

/-- Witness for C7 on the scenario bars at position 1 (`[9,12]` overlaps
`[8,10]`, today's range 3). -/
theorem overlap_ratio_in_unit_interval_witness :
    ∃ q, Overlap_Ratio bars3 1 = some q ∧ 0 ≤ q ∧ q ≤ 1 :=
  overlap_ratio_in_unit_interval bars3 1 ⟨"EURUSD", 0, 10, 8, 9⟩
    ⟨"EURUSD", 1, 12, 9, 11⟩ (by norm_num) (by rfl) (by rfl)
    (by norm_num) (by norm_num) (by norm_num)

/-- C2 counterexample: in a two-instrument batch whose first input file
is unreadable and whose second is fine, the run produces no output at
all — the remaining instrument is not processed, refuting the claim
that a failure on one instrument leaves the rest processed. -/
theorem batch_failure_halts_run :
    mainBatch [none, some bar1] = [] ∧
    process_symbol bar1 ∉ mainBatch [none, some bar1] := by
  constructor
  · rfl
  · intro h
    simp [mainBatch] at h

/-- C2 amended: a failure while processing one instrument halts the
batch at that instrument — exactly the instruments strictly before the
first failing one are processed, in order, and nothing at or after the
failure is. -/
theorem batch_stops_at_first_failure (inputs : List (Option (List Bar))) :
    mainBatch inputs = (inputs.takeWhile Option.isSome).map
      (fun o => process_symbol (o.getD [])) := by
  induction inputs with
  | nil => rfl
  | cons a rest ih =>
    cases a with
    | some rows => simp [mainBatch, List.takeWhile_cons, ih]
    | none => simp [mainBatch, List.takeWhile_cons]

/-- C8: on input already sorted ascending by date with no duplicate
dates, the output has exactly one row per input row, and output row `i`
is the metric record derived at position `i` for input row `i`. -/
theorem output_aligned_with_input (input : List Bar)
    (hsorted : input.Pairwise (fun a b => a.date < b.date)) :
    (process_symbol input).length = input.length ∧
    ∀ i b, input.get? i = some b →
      (process_symbol input).get? i = some (metricRow input i b) := by
  have hs : sortByDate input = input := by
    apply List.mergeSort_of_sorted
    apply hsorted.imp
    intro a b hab
    simp [le_of_lt hab]
  constructor
  · simp [process_symbol, hs]
  · intro i b hb
    have hb' : input[i]? = some b := by rwa [List.get?_eq_getElem?] at hb
    simp only [process_symbol, hs, List.get?_eq_getElem?, List.getElem?_map,
      List.enum, List.getElem?_enumFrom, hb', Option.map_some]
    simp

/-- Witness for C8 on the (strictly date-sorted) scenario bars. -/
theorem output_aligned_with_input_witness :
    bars3.Pairwise (fun a b => a.date < b.date) ∧
    ((process_symbol bars3).length = bars3.length ∧
      ∀ i b, bars3.get? i = some b →
        (process_symbol bars3).get? i = some (metricRow bars3 i b)) :=
  ⟨by decide, output_aligned_with_input bars3 (by decide)⟩

/-- Two filterMaps agree when their functions agree on the list. -/
theorem filterMap_congr_on {α β : Type} (l : List α)
    (g1 g2 : α → Option β) (h : ∀ a ∈ l, g1 a = g2 a) :
    l.filterMap g1 = l.filterMap g2 := by
  induction l with
  | nil => rfl
  | cons a t ih =>
    simp only [List.filterMap_cons, h a (by simp)]
    rw [ih (fun b hb => h b (by simp [hb]))]

/-- Rolling windows at position `i` read the series only at positions
`≤ i`. -/
theorem rollingWindow_congr (s1 s2 : Nat → Option ℚ) (w i : Nat)
    (h : ∀ j ≤ i, s1 j = s2 j) :
    rollingWindow s1 w i = rollingWindow s2 w i := by
  unfold rollingWindow
  apply filterMap_congr_on
  intro k _
  by_cases hki : k ≤ i
  · rw [if_pos hki, if_pos hki, h (i - k) (by omega)]
  · rw [if_neg hki, if_neg hki]

/-- Rolling means at position `i` read the series only at positions
`≤ i`. -/
theorem rollingMean_congr (s1 s2 : Nat → Option ℚ) (w i : Nat)
    (h : ∀ j ≤ i, s1 j = s2 j) :
    rollingMean s1 w i = rollingMean s2 w i := by
  unfold rollingMean
  rw [rollingWindow_congr s1 s2 w i h]

/-- Rolling sums at position `i` read the series only at positions
`≤ i`. -/
theorem rollingSum_congr (s1 s2 : Nat → Option ℚ) (w i : Nat)
    (h : ∀ j ≤ i, s1 j = s2 j) :
    rollingSum s1 w i = rollingSum s2 w i := by
  unfold rollingSum
  rw [rollingWindow_congr s1 s2 w i h]

/-- C9: every derived column is strictly causal — whenever two inputs
agree on rows `0 .. i`, every derived metric agrees at position `i`
(no metric reads a future bar). -/
theorem metrics_strictly_causal (data1 data2 : List Bar) (i : Nat)
    (h : ∀ j ≤ i, data1.get? j = data2.get? j) :
    Range data1 i = Range data2 i ∧
    (∀ w, Range_MA data1 w i = Range_MA data2 w i) ∧
    (∀ w, RangeCompression_vs_20 data1 w i = RangeCompression_vs_20 data2 w i) ∧
    Overlap_Ratio data1 i = Overlap_Ratio data2 i ∧
    (∀ w, Overlap_Ratio_MA data1 w i = Overlap_Ratio_MA data2 w i) ∧
    (∀ w, DirectionalEfficiency data1 w i = DirectionalEfficiency data2 w i) := by
  have h' : ∀ j ≤ i, data1[j]? = data2[j]? := by
    intro j hj
    have hg := h j hj
    rwa [List.get?_eq_getElem?, List.get?_eq_getElem?] at hg
  have hHigh : ∀ j ≤ i, High data1 j = High data2 j := by
    intro j hj; simp [High, List.get?_eq_getElem?, h' j hj]
  have hLow : ∀ j ≤ i, Low data1 j = Low data2 j := by
    intro j hj; simp [Low, List.get?_eq_getElem?, h' j hj]
  have hClose : ∀ j ≤ i, Close data1 j = Close data2 j := by
    intro j hj; simp [Close, List.get?_eq_getElem?, h' j hj]
  have hRange : ∀ j ≤ i, Range data1 j = Range data2 j := by
    intro j hj; simp [Range, hHigh j hj, hLow j hj]
  have hOv : ∀ j ≤ i, Overlap_Ratio data1 j = Overlap_Ratio data2 j := by
    intro j hj
    have hsh : shift (High data1) 1 j = shift (High data2) 1 j := by
      unfold shift
      split
      · rfl
      · exact hHigh (j - 1) (by omega)
    have hsl : shift (Low data1) 1 j = shift (Low data2) 1 j := by
      unfold shift
      split
      · rfl
      · exact hLow (j - 1) (by omega)
    simp [Overlap_Ratio, compute_overlap_ratio, hHigh j hj, hLow j hj, hsh, hsl]
  have hDiff : ∀ j ≤ i,
      oabs (diff (Close data1) j) = oabs (diff (Close data2) j) := by
    intro j hj
    have hsh : shift (Close data1) 1 j = shift (Close data2) 1 j := by
      unfold shift
      split
      · rfl
      · exact hClose (j - 1) (by omega)
    simp [diff, hClose j hj, hsh]
  refine ⟨hRange i le_rfl, ?_, ?_, hOv i le_rfl, ?_, ?_⟩
  · intro w
    simp only [Range_MA]
    exact rollingMean_congr _ _ w i hRange
  · intro w
    have hma := rollingMean_congr (Range data1) (Range data2) w i hRange
    have h20 := rollingMean_congr (Range data1) (Range data2) 20 i hRange
    simp only [RangeCompression_vs_20, Range_MA, hma, h20]
  · intro w
    simp only [Overlap_Ratio_MA]
    exact rollingMean_congr _ _ w i hOv
  · intro w
    have hTM : total_movement (Close data1) w i =
        total_movement (Close data2) w i := by
      simp only [total_movement]
      exact rollingSum_congr _ _ (w - 1) i hDiff
    have hshw : shift (Close data1) (w - 1) i =
        shift (Close data2) (w - 1) i := by
      unfold shift
      split
      · rfl
      · exact hClose (i - (w - 1)) (by omega)
    simp only [DirectionalEfficiency, compute_directional_efficiency,
      hClose i le_rfl, hshw, hTM]

/-- Witness for C9: `bars3` and its one-bar extension agree on rows
`0..2`, so every metric agrees at position 2. -/
theorem metrics_strictly_causal_witness :
    (∀ j ≤ 2, bars3.get? j = bars3ext.get? j) ∧
    (Range bars3 2 = Range bars3ext 2 ∧
     (∀ w, Range_MA bars3 w 2 = Range_MA bars3ext w 2) ∧
     (∀ w, RangeCompression_vs_20 bars3 w 2 = RangeCompression_vs_20 bars3ext w 2) ∧
     Overlap_Ratio bars3 2 = Overlap_Ratio bars3ext 2 ∧
     (∀ w, Overlap_Ratio_MA bars3 w 2 = Overlap_Ratio_MA bars3ext w 2) ∧
     (∀ w, DirectionalEfficiency bars3 w 2 = DirectionalEfficiency bars3ext w 2)) := by
  have hagree : ∀ j ≤ 2, bars3.get? j = bars3ext.get? j := by
    intro j hj
    interval_cases j <;> rfl
  exact ⟨hagree, metrics_strictly_causal bars3 bars3ext 2 hagree⟩

/-- A lifted binary operation yields a value iff both operands do. -/
theorem omap2_isSome_iff (f : ℚ → ℚ → ℚ) (x y : Option ℚ) :
    (omap2 f x y).isSome ↔ x.isSome ∧ y.isSome := by
  cases x <;> cases y <;> simp [omap2]

/-- Inversion for a defined lifted binary operation. -/
theorem omap2_eq_some_iff (f : ℚ → ℚ → ℚ) (x y : Option ℚ) (z : ℚ) :
    omap2 f x y = some z ↔ ∃ a b, x = some a ∧ y = some b ∧ z = f a b := by
  cases x <;> cases y <;> simp [omap2, eq_comm]

/-- Inversion for a defined `replace(0, NA)`. -/
theorem replace0_eq_some_iff (x : Option ℚ) (t : ℚ) :
    replace0 x = some t ↔ x = some t ∧ t ≠ 0 := by
  constructor
  · intro h
    cases x with
    | none => simp [replace0] at h
    | some v =>
      by_cases hv : v = 0
      · simp [replace0, hv] at h
      · simp [replace0, hv] at h
        exact ⟨by rw [h], h ▸ hv⟩
  · rintro ⟨h1, h2⟩
    subst h1
    simp [replace0, h2]

/-- Inversion for a defined elementwise absolute value. -/
theorem oabs_eq_some_iff (x : Option ℚ) (n : ℚ) :
    oabs x = some n ↔ ∃ v, x = some v ∧ n = |v| := by
  cases x <;> simp [oabs, eq_comm]

/-- `oabs` preserves definedness. -/
theorem oabs_isSome_iff (x : Option ℚ) : (oabs x).isSome ↔ x.isSome := by
  cases x <;> simp [oabs]

/-- A defined option equals `some` of its `getD` value. -/
theorem eq_some_getD (x : Option ℚ) (h : x.isSome) : x = some (x.getD 0) := by
  cases x with
  | none => cases h
  | some v => rfl

/-- Every value in a rolling window comes from a defined series position
at or before `i`. -/
theorem mem_rollingWindow (s : Nat → Option ℚ) (w i : Nat) (x : ℚ)
    (h : x ∈ rollingWindow s w i) : ∃ j, j ≤ i ∧ s j = some x := by
  unfold rollingWindow at h
  obtain ⟨k, _, hx⟩ := List.mem_filterMap.mp h
  by_cases hki : k ≤ i
  · rw [if_pos hki] at hx
    exact ⟨i - k, by omega, hx⟩
  · rw [if_neg hki] at hx
    cases hx

/-- `rolling(w).sum()` is defined iff the position is past warm-up and
every one of the `w` trailing values is defined. -/
theorem rollingSum_isSome_iff (s : Nat → Option ℚ) (w i : Nat) :
    (rollingSum s w i).isSome ↔
      (w ≤ i + 1 ∧ ∀ k < w, (s (i - k)).isSome) := by
  have hle := rollingWindow_length_le s w i
  have hiff := length_filterMap_eq_iff (List.range w)
    (fun k => if k ≤ i then s (i - k) else none)
  simp only [List.length_range] at hiff
  constructor
  · intro h
    have hcond : w ≤ (rollingWindow s w i).length := by
      by_contra hc
      simp only [rollingSum, if_neg hc, Option.isSome_none] at h
      exact Bool.false_ne_true h
    have hlen : (rollingWindow s w i).length = w := le_antisymm hle hcond
    have hall := hiff.mp hlen
    constructor
    · rcases Nat.eq_zero_or_pos w with hw0 | hw0
      · omega
      · have := hall (w - 1) (List.mem_range.mpr (by omega))
        by_contra hc
        rw [if_neg (by omega)] at this
        simp at this
    · intro k hk
      have := hall k (List.mem_range.mpr hk)
      by_cases hki : k ≤ i
      · rwa [if_pos hki] at this
      · rw [if_neg hki] at this; simp at this
  · rintro ⟨hw, hs⟩
    have hlen : (rollingWindow s w i).length = w := by
      apply hiff.mpr
      intro k hk
      have hk' := List.mem_range.mp hk
      rw [if_pos (by omega)]
      exact hs k hk'
    simp [rollingSum, hlen]

/-- Inversion for a defined `rolling(w).sum()`: the value is the window
sum and the window is full. -/
theorem rollingSum_eq_some (s : Nat → Option ℚ) (w i : Nat) (t : ℚ)
    (h : rollingSum s w i = some t) :
    t = (rollingWindow s w i).sum ∧ w ≤ (rollingWindow s w i).length := by
  by_cases hc : w ≤ (rollingWindow s w i).length
  · simp only [rollingSum, if_pos hc] at h
    exact ⟨(Option.some.inj h).symm, hc⟩
  · simp only [rollingSum, if_neg hc] at h
    cases h

/-- Inversion for the values a fully-defined diff window reads. -/
theorem diff_window_values (close : Nat → Option ℚ) (i m : Nat)
    (hm : m ≤ i) (hdef : ∀ k < m, (diff close (i - k)).isSome) :
    ∀ k < m,
      diff close (i - k) =
        some ((close (i - k)).getD 0 - (close (i - (k + 1))).getD 0) ∧
      close (i - k) = some ((close (i - k)).getD 0) ∧
      close (i - (k + 1)) = some ((close (i - (k + 1))).getD 0) := by
  intro k hk
  have hd := hdef k hk
  have hsub : i - k - 1 = i - (k + 1) := by omega
  rw [diff, shift, if_neg (by omega), hsub] at hd
  rw [diff, shift, if_neg (by omega), hsub]
  rw [osub] at hd
  obtain ⟨ha, hb⟩ := (omap2_isSome_iff _ _ _).mp hd
  obtain ⟨a, hae⟩ := Option.isSome_iff_exists.mp ha
  obtain ⟨b, hbe⟩ := Option.isSome_iff_exists.mp hb
  rw [osub]
  simp [omap2, hae, hbe]

/-- C6: for every close series and `w ∈ {5,10,20}`, wherever
`directional_efficiency[w]` is defined (its total movement then being
nonzero, hence positive) the value lies in `[0, 1]`; and it equals
exactly `1` whenever all `w-1` day-to-day close changes in the window
share the same sign. -/
theorem directional_efficiency_bounds (close : Nat → Option ℚ) (w i : Nat)
    (hw : w = 5 ∨ w = 10 ∨ w = 20) :
    (∀ q, compute_directional_efficiency close w i = some q →
      0 ≤ q ∧ q ≤ 1) ∧
    (((∀ k < w - 1, ∃ d, diff close (i - k) = some d ∧ 0 < d) ∨
      (∀ k < w - 1, ∃ d, diff close (i - k) = some d ∧ d < 0)) →
      w - 1 ≤ i →
      compute_directional_efficiency close w i = some 1) := by
  have hw2 : 2 ≤ w := by rcases hw with h | h | h <;> omega
  have hfinal : ∀ T : ℚ, T ≠ 0 →
      total_movement close w i = some T →
      oabs (osub (close i) (shift close (w - 1) i)) = some T →
      compute_directional_efficiency close w i = some 1 := by
    intro T hT htm hnet
    simp only [compute_directional_efficiency]
    rw [htm, hnet]
    simp [replace0, hT, odiv, omap2, div_self hT]
  constructor
  · intro q hq
    simp only [compute_directional_efficiency, odiv] at hq
    obtain ⟨n, t, hn, ht, hqv⟩ := (omap2_eq_some_iff _ _ _ _).mp hq
    obtain ⟨htm, ht0⟩ := (replace0_eq_some_iff _ _).mp ht
    obtain ⟨nv, hnv, hnab⟩ := (oabs_eq_some_iff _ _).mp hn
    have hn0 : 0 ≤ n := by rw [hnab]; exact abs_nonneg nv
    simp only [total_movement] at htm
    obtain ⟨hteq, _⟩ := rollingSum_eq_some _ _ _ _ htm
    have ht0' : 0 ≤ t := by
      rw [hteq]
      apply List.sum_nonneg
      intro x hx
      obtain ⟨j, _, hsj⟩ := mem_rollingWindow _ _ _ _ hx
      obtain ⟨v, _, hvab⟩ := (oabs_eq_some_iff _ _).mp hsj
      rw [hvab]
      exact abs_nonneg v
    have htpos : 0 < t := lt_of_le_of_ne ht0' (Ne.symm ht0)
    have hsome : (rollingSum (fun j => oabs (diff close j)) (w - 1) i).isSome := by
      rw [htm]
      rfl
    obtain ⟨_, hdefabs⟩ := (rollingSum_isSome_iff _ _ _).mp hsome
    have hdef : ∀ k < w - 1, (diff close (i - k)).isSome := by
      intro k hk
      have hh := hdefabs k hk
      rwa [oabs_isSome_iff] at hh
    rw [osub] at hnv
    obtain ⟨ci, cp, hci, hcp, hnvv⟩ := (omap2_eq_some_iff _ _ _ _).mp hnv
    have hiw : w - 1 ≤ i := by
      by_contra hc
      rw [shift, if_pos (by omega)] at hcp
      cases hcp
    rw [shift, if_neg (by omega)] at hcp
    have hvals := diff_window_values close i (w - 1) hiw hdef
    set c : Nat → ℚ := fun k => (close (i - k)).getD 0 with hcdef
    have hs' : ∀ k < w - 1, (fun j => oabs (diff close j)) (i - k) =
        some (|c k - c (k + 1)|) := by
      intro k hk
      have h1 := (hvals k hk).1
      simp only [hcdef]
      simp [oabs, h1]
    have htsum := rollingSum_eq_of_defined (fun j => oabs (diff close j)) (w - 1) i
      (fun k => |c k - c (k + 1)|) (by omega) hs'
    have hteq2 : t = ((List.range (w - 1)).map
        (fun k => |c k - c (k + 1)|)).sum :=
      Option.some.inj (htm.symm.trans htsum)
    have hci' : ci = c 0 := by simp [hcdef, hci]
    have hcp' : cp = c (w - 1) := by simp [hcdef, hcp]
    have hnt : n ≤ t := by
      rw [hnab, hnvv, hci', hcp']
      have htel : c 0 - c (w - 1) =
          ∑ k ∈ Finset.range (w - 1), (c k - c (k + 1)) :=
        (Finset.sum_range_sub' c (w - 1)).symm
      rw [htel, hteq2, sum_map_range_eq]
      exact Finset.abs_sum_le_sum_abs _ _
    constructor
    · rw [hqv]
      exact div_nonneg hn0 ht0'
    · rw [hqv, div_le_one htpos]
      exact hnt
  · rintro (hsign | hsign) hwi
    · have hdef : ∀ k < w - 1, (diff close (i - k)).isSome := by
        intro k hk
        obtain ⟨d, hd, _⟩ := hsign k hk
        rw [hd]
        rfl
      have hvals := diff_window_values close i (w - 1) hwi hdef
      set c : Nat → ℚ := fun k => (close (i - k)).getD 0 with hcdef
      have hdpos : ∀ k < w - 1, 0 < c k - c (k + 1) := by
        intro k hk
        obtain ⟨d, hd, hdp⟩ := hsign k hk
        have h1 := (hvals k hk).1
        rw [hd] at h1
        have hde : d = (close (i - k)).getD 0 - (close (i - (k + 1))).getD 0 :=
          Option.some.inj h1
        simp only [hcdef]
        rw [← hde]
        exact hdp
      have hs' : ∀ k < w - 1, (fun j => oabs (diff close j)) (i - k) =
          some (c k - c (k + 1)) := by
        intro k hk
        have h1 := (hvals k hk).1
        have habs : |(close (i - k)).getD 0 - (close (i - (k + 1))).getD 0| =
            (close (i - k)).getD 0 - (close (i - (k + 1))).getD 0 := by
          apply abs_of_pos
          have hp := hdpos k hk
          simpa [hcdef] using hp
        simp only [hcdef]
        simp [oabs, h1, habs]
      have htsum := rollingSum_eq_of_defined (fun j => oabs (diff close j)) (w - 1) i
        (fun k => c k - c (k + 1)) (by omega) hs'
      set T : ℚ := c 0 - c (w - 1) with hTdef
      have hsum : ((List.range (w - 1)).map (fun k => c k - c (k + 1))).sum = T := by
        rw [sum_map_range_eq]
        exact Finset.sum_range_sub' c (w - 1)
      have hTpos : 0 < T := by
        rw [hTdef, ← Finset.sum_range_sub' c (w - 1)]
        apply Finset.sum_pos
        · intro k hk
          exact hdpos k (Finset.mem_range.mp hk)
        · exact Finset.nonempty_range_iff.mpr (by omega)
      have htm : total_movement close w i = some T := by
        simp only [total_movement]
        rw [htsum, hsum]
      have hnet : oabs (osub (close i) (shift close (w - 1) i)) = some T := by
        have hc0 : close i = some (c 0) := by
          have hh := (hvals 0 (by omega)).2.1
          simpa [hcdef] using hh
        have hcw : close (i - (w - 1)) = some (c (w - 1)) := by
          have hh := (hvals (w - 2) (by omega)).2.2
          have he : w - 2 + 1 = w - 1 := by omega
          rw [he] at hh
          simpa [hcdef] using hh
        rw [shift, if_neg (by omega), osub, hc0, hcw]
        simp only [omap2, oabs, Option.map_some]
        rw [← hTdef]
        simp [abs_of_pos hTpos]
      exact hfinal T (ne_of_gt hTpos) htm hnet
    · have hdef : ∀ k < w - 1, (diff close (i - k)).isSome := by
        intro k hk
        obtain ⟨d, hd, _⟩ := hsign k hk
        rw [hd]
        rfl
      have hvals := diff_window_values close i (w - 1) hwi hdef
      set c : Nat → ℚ := fun k => (close (i - k)).getD 0 with hcdef
      have hdneg : ∀ k < w - 1, c k - c (k + 1) < 0 := by
        intro k hk
        obtain ⟨d, hd, hdn⟩ := hsign k hk
        have h1 := (hvals k hk).1
        rw [hd] at h1
        have hde : d = (close (i - k)).getD 0 - (close (i - (k + 1))).getD 0 :=
          Option.some.inj h1
        simp only [hcdef]
        rw [← hde]
        exact hdn
      have hs' : ∀ k < w - 1, (fun j => oabs (diff close j)) (i - k) =
          some (c (k + 1) - c k) := by
        intro k hk
        have h1 := (hvals k hk).1
        have habs : |(close (i - k)).getD 0 - (close (i - (k + 1))).getD 0| =
            (close (i - (k + 1))).getD 0 - (close (i - k)).getD 0 := by
          have hn := hdneg k hk
          simp only [hcdef] at hn
          rw [abs_of_neg hn]
          ring
        simp only [hcdef]
        simp [oabs, h1, habs]
      have htsum := rollingSum_eq_of_defined (fun j => oabs (diff close j)) (w - 1) i
        (fun k => c (k + 1) - c k) (by omega) hs'
      set T : ℚ := c (w - 1) - c 0 with hTdef
      have hsum : ((List.range (w - 1)).map (fun k => c (k + 1) - c k)).sum = T := by
        rw [sum_map_range_eq]
        exact Finset.sum_range_sub c (w - 1)
      have hTpos : 0 < T := by
        rw [hTdef, ← Finset.sum_range_sub c (w - 1)]
        apply Finset.sum_pos
        · intro k hk
          have hn := hdneg k (Finset.mem_range.mp hk)
          linarith
        · exact Finset.nonempty_range_iff.mpr (by omega)
      have htm : total_movement close w i = some T := by
        simp only [total_movement]
        rw [htsum, hsum]
      have hnet : oabs (osub (close i) (shift close (w - 1) i)) = some T := by
        have hc0 : close i = some (c 0) := by
          have hh := (hvals 0 (by omega)).2.1
          simpa [hcdef] using hh
        have hcw : close (i - (w - 1)) = some (c (w - 1)) := by
          have hh := (hvals (w - 2) (by omega)).2.2
          have he : w - 2 + 1 = w - 1 := by omega
          rw [he] at hh
          simpa [hcdef] using hh
        rw [shift, if_neg (by omega), osub, hc0, hcw]
        simp only [omap2, oabs, Option.map_some]
        have habs : |c 0 - c (w - 1)| = T := by
          have hlt : c 0 - c (w - 1) < 0 := by
            rw [hTdef] at hTpos
            linarith
          rw [abs_of_neg hlt, hTdef]
          ring
        simp [habs]
      exact hfinal T (ne_of_gt hTpos) htm hnet

/-- Witness for C6: on five strictly rising closes `1..5` (window 5,
position 4) every day-to-day change is `+1`, and the directional
efficiency is exactly `1`, which lies in `[0, 1]`. -/
theorem directional_efficiency_bounds_witness :
    compute_directional_efficiency (Close bars5up) 5 4 = some 1 ∧
    (0 ≤ (1 : ℚ) ∧ (1 : ℚ) ≤ 1) := by
  have hsign : ∀ k < 5 - 1, ∃ d,
      diff (Close bars5up) (4 - k) = some d ∧ 0 < d := by
    intro k hk
    interval_cases k <;>
      exact ⟨1, by norm_num [diff, Close, shift, osub, omap2, bars5up], by norm_num⟩
  have h := directional_efficiency_bounds (Close bars5up) 5 4 (by norm_num)
  have h1 := h.2 (Or.inl hsign) (by norm_num)
  exact ⟨h1, h.1 1 h1⟩
